import Mathlib

/-!
Shallow embedding of the differentiable-indexing primitives and the
differentiable stack of this repository.  Arrays are total functions over
`Fin`; numeric entries are rationals (the code works with float32 tensors,
all constants exercised here are exactly representable).  Out-of-range
integer indexing, which would raise in the source, is modelled totally by
returning 0; all theorems about it carry in-range hypotheses.
-/

/-- One row of `tf.eye n`, i.e. `tf.one_hot(i, n)` for `i : Fin n`. -/
def onehot {n : ℕ} (i : Fin n) : Fin n → ℚ :=
  fun j => if j = i then 1 else 0

/-- One-hot vector of length `n` whose hot slot is `k % n`; this enumerates
exactly the one-hot vectors while keeping cyclic index arithmetic in ℕ. -/
def onehotN (n k : ℕ) : Fin n → ℚ :=
  fun j => if j.val = k % n then 1 else 0

/-- Embedding of `tf.roll(v, shift=1, axis=0)`: each entry moves up one
slot cyclically, so slot `j` reads the old slot `j - 1 (mod n)`. -/
def roll1 {n : ℕ} (v : Fin n → ℚ) : Fin n → ℚ :=
  fun j => v ⟨(j.val + (n - 1)) % n,
    Nat.mod_lt _ (Nat.lt_of_le_of_lt (Nat.zero_le _) j.isLt)⟩

/-- Embedding of `tf.roll(v, shift=-1, axis=0)`: slot `j` reads the old
slot `j + 1 (mod n)`. -/
def rollm1 {n : ℕ} (v : Fin n → ℚ) : Fin n → ℚ :=
  fun j => v ⟨(j.val + 1) % n,
    Nat.mod_lt _ (Nat.lt_of_le_of_lt (Nat.zero_le _) j.isLt)⟩

/-- Source `assign_index_vectored(arr, index, element)`:
`arr * neg_mask + tiled_element * pos_mask` with `pos_mask = index`
broadcast down the rows and `neg_mask = 1 - pos_mask`. -/
def assign_index_vectored {n m : ℕ} (arr : Fin n → Fin m → ℚ)
    (index : Fin n → ℚ) (element : Fin m → ℚ) : Fin n → Fin m → ℚ :=
  fun i j => arr i j * (1 - index i) + element j * index i

/-- Source `superposition_lookup_vectored(arr, indices)`: multiply each row
by its weight and `reduce_sum` over axis 0. -/
def superposition_lookup_vectored {n m : ℕ} (arr : Fin n → Fin m → ℚ)
    (indices : Fin n → ℚ) : Fin m → ℚ :=
  fun j => ∑ i, arr i j * indices i

/-- StackState: the pair (buffer, index) threaded through the stack API. -/
abbrev StackState (n m : ℕ) := (Fin n → Fin m → ℚ) × (Fin n → ℚ)

/-- Source `new_stack(stack_shape)`: zero buffer, index one-hot at 0. -/
def new_stack (n m : ℕ) : StackState n m :=
  (fun _ _ => 0, onehotN n 0)

/-- Source `stack_push(stack, element)`: soft-assign the element at the
index weights, then roll the index by +1. -/
def stack_push {n m : ℕ} (stack : StackState n m) (element : Fin m → ℚ) :
    StackState n m :=
  (assign_index_vectored stack.1 stack.2 element, roll1 stack.2)

/-- Source `stack_pop(stack)`: roll the index by -1, read the buffer at
the new index weights, return the new state and the element. -/
def stack_pop {n m : ℕ} (stack : StackState n m) :
    StackState n m × (Fin m → ℚ) :=
  ((stack.1, rollm1 stack.2),
    superposition_lookup_vectored stack.1 (rollm1 stack.2))

/-- Source `stack_peek(stack)`: the element `stack_pop` would read, with
no new state returned. -/
def stack_peek {n m : ℕ} (stack : StackState n m) : Fin m → ℚ :=
  superposition_lookup_vectored stack.1 (rollm1 stack.2)

/-- The push loop of `reverse_list` step 1: fold `stack_push` over a list
of elements. -/
def pushAll {n m : ℕ} (s : StackState n m) (L : List (Fin m → ℚ)) :
    StackState n m :=
  L.foldl stack_push s

/-- Iterated `stack_pop`, collecting the popped elements in order. -/
def popN {n m : ℕ} : ℕ → StackState n m → StackState n m × List (Fin m → ℚ)
  | 0, s => (s, [])
  | c + 1, s =>
    let r := stack_pop s
    let r2 := popN c r.1
    (r2.1, r.2 :: r2.2)

/-- The transfer loop of `reverse_list` step 2: pop from stack 1 and push
the popped element onto stack 2, `c` times; returns the final stack 2. -/
def transfer {n m : ℕ} : ℕ → StackState n m → StackState n m → StackState n m
  | 0, _, s2 => s2
  | c + 1, s1, s2 => transfer c (stack_pop s1).1 (stack_push s2 (stack_pop s1).2)

/-- Source `reverse_list(arr)`: push every row of `arr` onto stack 1,
transfer all of them to stack 2, return the buffer of stack 2. -/
def reverse_list {n m : ℕ} (arr : Fin n → Fin m → ℚ) : Fin n → Fin m → ℚ :=
  (transfer n (pushAll (new_stack n m) ((List.finRange n).map arr))
    (new_stack n m)).1

/-- Row `i` reversed: row `n - 1 - i`. -/
def revFin {n : ℕ} (i : Fin n) : Fin n :=
  ⟨n - 1 - i.val, Nat.lt_of_le_of_lt (Nat.sub_le _ _) (Nat.sub_lt i.pos Nat.one_pos)⟩

/-- Pointwise row replacement: the effect of a one-hot soft assignment. -/
def updRow {n m : ℕ} (arr : Fin n → Fin m → ℚ) (t : Fin n)
    (e : Fin m → ℚ) : Fin n → Fin m → ℚ :=
  fun i => if i = t then e else arr i

/-- Row `i` of a list of rows, with zero rows past the end. -/
def getRow {m : ℕ} (L : List (Fin m → ℚ)) (i : ℕ) : Fin m → ℚ :=
  L.getD i (fun _ => 0)

section StackLemmas

variable {n m : ℕ}

lemma mod_roll1_iff (n k : ℕ) (j : Fin n) :
    (j.val + (n - 1)) % n = k % n ↔ j.val = (k + 1) % n := by
  have hn : 0 < n := j.pos
  have hj : j.val % n = j.val := Nat.mod_eq_of_lt j.isLt
  constructor
  · intro h
    have h1 : (j.val + (n - 1) + 1) % n = (k + 1) % n := by
      rw [Nat.add_mod, h, ← Nat.add_mod]
    have e : j.val + (n - 1) + 1 = j.val + n := by omega
    rw [e, Nat.add_mod_right, hj] at h1
    exact h1
  · intro h
    rw [h, Nat.mod_add_mod]
    have e : k + 1 + (n - 1) = k + n := by omega
    rw [e, Nat.add_mod_right]

lemma mod_rollm1_iff (n k : ℕ) (j : Fin n) :
    (j.val + 1) % n = k % n ↔ j.val = (k + (n - 1)) % n := by
  have hn : 0 < n := j.pos
  have hj : j.val % n = j.val := Nat.mod_eq_of_lt j.isLt
  constructor
  · intro h
    have h1 : (j.val + 1 + (n - 1)) % n = (k + (n - 1)) % n := by
      rw [Nat.add_mod, h, ← Nat.add_mod]
    have e : j.val + 1 + (n - 1) = j.val + n := by omega
    rw [e, Nat.add_mod_right, hj] at h1
    exact h1
  · intro h
    rw [h, Nat.mod_add_mod]
    have e : k + (n - 1) + 1 = k + n := by omega
    rw [e, Nat.add_mod_right]

lemma roll1_onehotN (k : ℕ) : roll1 (onehotN n k) = onehotN n (k + 1) := by
  funext j
  show (if (j.val + (n - 1)) % n = k % n then (1 : ℚ) else 0)
      = if j.val = (k + 1) % n then 1 else 0
  exact if_congr (mod_roll1_iff n k j) rfl rfl

lemma rollm1_onehotN (k : ℕ) :
    rollm1 (onehotN n k) = onehotN n (k + (n - 1)) := by
  funext j
  show (if (j.val + 1) % n = k % n then (1 : ℚ) else 0)
      = if j.val = (k + (n - 1)) % n then 1 else 0
  exact if_congr (mod_rollm1_iff n k j) rfl rfl

lemma onehotN_add_n (k : ℕ) : onehotN n (k + n) = onehotN n k := by
  funext j
  simp [onehotN, Nat.add_mod_right]

lemma onehotN_eq_onehot (k : ℕ) (hn : 0 < n) :
    onehotN n k = onehot ⟨k % n, Nat.mod_lt _ hn⟩ := by
  funext j
  simp [onehotN, onehot, Fin.ext_iff]

lemma superpos_onehot (arr : Fin n → Fin m → ℚ) (t : Fin n) :
    superposition_lookup_vectored arr (onehot t) = arr t := by
  funext j
  simp [superposition_lookup_vectored, onehot, mul_ite, mul_one, mul_zero,
    Finset.sum_ite_eq']

lemma assign_onehot (arr : Fin n → Fin m → ℚ) (t : Fin n) (e : Fin m → ℚ) :
    assign_index_vectored arr (onehot t) e = updRow arr t e := by
  funext i j
  by_cases h : i = t <;> simp [assign_index_vectored, onehot, updRow, h]

lemma stack_push_onehotN (arr : Fin n → Fin m → ℚ) (k : ℕ) (e : Fin m → ℚ)
    (hn : 0 < n) :
    stack_push (arr, onehotN n k) e
      = (updRow arr ⟨k % n, Nat.mod_lt _ hn⟩ e, onehotN n (k + 1)) := by
  unfold stack_push
  rw [show ((arr, onehotN n k) : StackState n m).2 = onehotN n k from rfl,
    roll1_onehotN, onehotN_eq_onehot k hn]
  exact congrArg (fun b => (b, onehotN n (k + 1))) (assign_onehot arr _ e)

lemma stack_pop_onehotN (arr : Fin n → Fin m → ℚ) (k : ℕ) (hn : 0 < n) :
    stack_pop (arr, onehotN n (k + 1))
      = ((arr, onehotN n k), arr ⟨k % n, Nat.mod_lt _ hn⟩) := by
  have hidx : rollm1 (onehotN n (k + 1)) = onehotN n k := by
    rw [rollm1_onehotN]
    have e : k + 1 + (n - 1) = k + n := by omega
    rw [e, onehotN_add_n]
  unfold stack_pop
  rw [show ((arr, onehotN n (k + 1)) : StackState n m).2 = onehotN n (k + 1)
      from rfl, hidx, onehotN_eq_onehot k hn, superpos_onehot]

end StackLemmas

section LoopLemmas

variable {n m : ℕ}

lemma pushAll_spec (L : List (Fin m → ℚ)) :
    ∀ (arr : Fin n → Fin m → ℚ) (k : ℕ), k + L.length ≤ n →
      pushAll (arr, onehotN n k) L
        = ((fun i => if k ≤ i.val ∧ i.val < k + L.length
              then getRow L (i.val - k) else arr i),
           onehotN n (k + L.length)) := by
  induction L with
  | nil =>
    intro arr k _
    refine Prod.ext ?_ (by simp [pushAll])
    funext i
    simp only [pushAll, List.foldl_nil, List.length_nil]
    rw [if_neg (by omega)]
  | cons e L ih =>
    intro arr k hk
    have hkn : k < n := by
      have := hk
      simp only [List.length_cons] at this
      omega
    have hmod : k % n = k := Nat.mod_eq_of_lt hkn
    have hstep : pushAll (arr, onehotN n k) (e :: L)
        = pushAll (updRow arr ⟨k % n, Nat.mod_lt _ (Nat.lt_of_le_of_lt (Nat.zero_le _) hkn)⟩ e,
            onehotN n (k + 1)) L := by
      show (e :: L).foldl stack_push (arr, onehotN n k) = _
      rw [List.foldl_cons,
        stack_push_onehotN arr k e (Nat.lt_of_le_of_lt (Nat.zero_le _) hkn)]
      rfl
    rw [hstep, ih _ (k + 1) (by simp only [List.length_cons] at hk; omega)]
    refine Prod.ext ?_ ?_
    · funext i
      show (if k + 1 ≤ i.val ∧ i.val < k + 1 + L.length
          then getRow L (i.val - (k + 1))
          else updRow arr ⟨k % n, _⟩ e i)
        = if k ≤ i.val ∧ i.val < k + (e :: L).length
          then getRow (e :: L) (i.val - k) else arr i
      simp only [List.length_cons]
      rcases Nat.lt_trichotomy i.val k with hlt | heq | hgt
      · rw [if_neg (by omega), if_neg (by omega)]
        have : i ≠ ⟨k % n, Nat.mod_lt _ (Nat.lt_of_le_of_lt (Nat.zero_le _) hkn)⟩ := by
          intro hcontra
          rw [Fin.ext_iff] at hcontra
          simp only [hmod] at hcontra
          omega
        simp [updRow, this]
      · rw [if_neg (by omega), if_pos (by omega)]
        have hi : i = ⟨k % n, Nat.mod_lt _ (Nat.lt_of_le_of_lt (Nat.zero_le _) hkn)⟩ := by
          rw [Fin.ext_iff]
          simp only [hmod]
          omega
        rw [hi]
        simp only [updRow, if_pos rfl]
        have : (⟨k % n, Nat.mod_lt _ (Nat.lt_of_le_of_lt (Nat.zero_le _) hkn)⟩ : Fin n).val - k = 0 := by
          simp only [hmod]
          omega
        rw [this]
        rfl
      · by_cases hub : i.val < k + (L.length + 1)
        · rw [if_pos (by omega), if_pos (by omega)]
          have hsub : i.val - k = (i.val - (k + 1)) + 1 := by omega
          rw [hsub]
          rfl
        · rw [if_neg (by omega), if_neg (by omega)]
          have : i ≠ ⟨k % n, Nat.mod_lt _ (Nat.lt_of_le_of_lt (Nat.zero_le _) hkn)⟩ := by
            intro hcontra
            rw [Fin.ext_iff] at hcontra
            simp only [hmod] at hcontra
            omega
          simp [updRow, this]
    · show onehotN n (k + 1 + L.length) = onehotN n (k + (e :: L).length)
      simp only [List.length_cons]
      exact congrArg (onehotN n) (by omega)

lemma popN_spec (c : ℕ) :
    ∀ (arr : Fin n → Fin m → ℚ) (k : ℕ) (hn : 0 < n), c ≤ k →
      popN c (arr, onehotN n k)
        = ((arr, onehotN n (k - c)),
           (List.range c).map (fun i => arr ⟨(k - 1 - i) % n, Nat.mod_lt _ hn⟩)) := by
  induction c with
  | zero =>
    intro arr k hn _
    simp [popN]
  | succ c ih =>
    intro arr k hn hck
    have hk1 : k - 1 + 1 = k := by omega
    have hpop : stack_pop (arr, onehotN n k)
        = ((arr, onehotN n (k - 1)), arr ⟨(k - 1) % n, Nat.mod_lt _ hn⟩) := by
      rw [← hk1]
      exact stack_pop_onehotN arr (k - 1) hn
    show ((popN c (stack_pop (arr, onehotN n k)).1).1,
        (stack_pop (arr, onehotN n k)).2 :: (popN c (stack_pop (arr, onehotN n k)).1).2) = _
    rw [hpop]
    simp only
    rw [ih arr (k - 1) hn (by omega)]
    refine Prod.ext (Prod.ext rfl ?_) ?_
    · show onehotN n (k - 1 - c) = onehotN n (k - (c + 1))
      exact congrArg (onehotN n) (by omega)
    · show arr ⟨(k - 1) % n, _⟩ :: (List.range c).map (fun i => arr ⟨(k - 1 - 1 - i) % n, _⟩)
        = (List.range (c + 1)).map (fun i => arr ⟨(k - 1 - i) % n, _⟩)
      rw [List.range_succ_eq_map, List.map_cons, List.map_map]
      refine congrArg₂ _ ?_ ?_
      · exact congrArg arr (Fin.ext (congrArg (· % n) (by omega)))
      · refine List.map_congr_left ?_
        intro i _
        exact congrArg arr (Fin.ext (congrArg (· % n) (by omega)))

lemma transfer_eq (c : ℕ) :
    ∀ (s1 s2 : StackState n m), transfer c s1 s2 = pushAll s2 (popN c s1).2 := by
  induction c with
  | zero => intro s1 s2; rfl
  | succ c ih =>
    intro s1 s2
    show transfer c (stack_pop s1).1 (stack_push s2 (stack_pop s1).2)
      = pushAll s2 ((stack_pop s1).2 :: (popN c (stack_pop s1).1).2)
    rw [ih]
    rfl

lemma pushAll_idx (L : List (Fin m → ℚ)) :
    ∀ (s : StackState n m) (k : ℕ), s.2 = onehotN n k →
      (pushAll s L).2 = onehotN n (k + L.length) := by
  induction L with
  | nil => intro s k hs; simpa using hs
  | cons e L ih =>
    intro s k hs
    have : (pushAll (stack_push s e) L).2 = onehotN n (k + 1 + L.length) := by
      refine ih _ (k + 1) ?_
      show roll1 s.2 = onehotN n (k + 1)
      rw [hs, roll1_onehotN]
    show (pushAll (stack_push s e) L).2 = onehotN n (k + (e :: L).length)
    rw [this]
    simp only [List.length_cons]
    exact congrArg (onehotN n) (by omega)

lemma getRow_map_finRange (arr : Fin n → Fin m → ℚ) (i : Fin n) :
    getRow ((List.finRange n).map arr) i.val = arr i := by
  unfold getRow
  rw [List.getD_eq_getElem _ _ (by simp [i.isLt])]
  simp

end LoopLemmas


section ReverseLemmas

variable {n m : ℕ}

lemma revFin_revFin (i : Fin n) : revFin (revFin i) = i := by
  have h := i.isLt
  refine Fin.ext ?_
  simp only [revFin]
  omega

lemma pushAll_fresh (L : List (Fin m → ℚ)) (hlen : L.length = n) :
    pushAll ((fun _ _ => (0 : ℚ)), onehotN n 0) L
      = ((fun i => getRow L i.val), onehotN n n) := by
  rw [pushAll_spec L _ 0 (by omega)]
  refine Prod.ext ?_ ?_
  · funext i
    simp only
    rw [if_pos (by have := i.isLt; omega), Nat.sub_zero]
  · simp only
    exact congrArg (onehotN n) (by omega)

lemma popN_fresh (L : List (Fin m → ℚ)) (_hlen : L.length = n) (hn : 0 < n) :
    popN n ((fun i => getRow L i.val), onehotN n n)
      = (((fun i => getRow L i.val), onehotN n 0),
         (List.range n).map (fun i2 => getRow L (n - 1 - i2))) := by
  rw [popN_spec n _ n hn le_rfl]
  refine Prod.ext (Prod.ext rfl (congrArg (onehotN n) (by omega))) ?_
  simp only
  refine List.map_congr_left ?_
  intro i2 hi2
  have h2 : i2 < n := List.mem_range.mp hi2
  show getRow L ((n - 1 - i2) % n) = getRow L (n - 1 - i2)
  rw [Nat.mod_eq_of_lt (by omega)]

lemma reverse_list_eq (arr : Fin n → Fin m → ℚ) :
    reverse_list arr = fun i => arr (revFin i) := by
  rcases Nat.eq_zero_or_pos n with h0 | hn
  · subst h0
    funext i
    exact i.elim0
  · unfold reverse_list
    rw [transfer_eq,
      show new_stack n m = ((fun _ _ => (0 : ℚ)), onehotN n 0) from rfl,
      pushAll_fresh ((List.finRange n).map arr) (by simp),
      popN_fresh ((List.finRange n).map arr) (by simp) hn,
      pushAll_fresh ((List.range n).map
        (fun i2 => getRow ((List.finRange n).map arr) (n - 1 - i2))) (by simp)]
    funext i
    show getRow ((List.range n).map
        (fun i2 => getRow ((List.finRange n).map arr) (n - 1 - i2))) i.val
      = arr (revFin i)
    unfold getRow
    rw [List.getD_eq_getElem _ _ (by simp [i.isLt])]
    simp only [List.getElem_map, List.getElem_range]
    show getRow ((List.finRange n).map arr) ((revFin i).val) = arr (revFin i)
    exact getRow_map_finRange arr (revFin i)

end ReverseLemmas

section StackClaims

variable {n m : ℕ}

lemma popN_pushAll_reverse (L : List (Fin m → ℚ)) (hL : L.length ≤ n) :
    (popN L.length (pushAll (new_stack n m) L)).2 = L.reverse := by
  rcases Nat.eq_zero_or_pos n with h0 | hn
  · subst h0
    have : L = [] := List.eq_nil_of_length_eq_zero (by omega)
    subst this
    rfl
  · rw [show new_stack n m = ((fun _ _ => (0 : ℚ)), onehotN n 0) from rfl,
      pushAll_spec L _ 0 (by omega),
      popN_spec L.length _ (0 + L.length) hn (by omega)]
    simp only [Nat.zero_add, Nat.sub_zero]
    refine List.ext_getElem (by simp) ?_
    intro idx h1 h2
    have hidx : idx < L.length := by simpa using h1
    simp only [List.getElem_map, List.getElem_range]
    show (if 0 ≤ (L.length - 1 - idx) % n ∧ (L.length - 1 - idx) % n < L.length
        then getRow L ((L.length - 1 - idx) % n)
        else (fun _ => (0 : ℚ)))
      = L.reverse[idx]
    rw [Nat.mod_eq_of_lt (show L.length - 1 - idx < n by omega),
      if_pos (by omega)]
    unfold getRow
    rw [List.getD_eq_getElem _ _ (by omega), List.getElem_reverse]

/-- C1 counterexample: with bandwidth 2, a zero buffer, position one-hot at
slot 0 and pushed element 1, the buffer after pop(push(state, e)) is not
the pre-push buffer (the pushed slot keeps the written element). -/
theorem claim1_counterexample :
    (stack_pop (stack_push (((fun _ _ => (0 : ℚ)) : Fin 2 → Fin 1 → ℚ),
        onehotN 2 0) (fun _ => 1))).1.1
      ≠ (fun _ _ => (0 : ℚ)) := by
  rw [stack_push_onehotN _ 0 _ (by norm_num),
    stack_pop_onehotN _ 0 (by norm_num)]
  intro hcontra
  have h0 := congrFun (congrFun hcontra ⟨0, by norm_num⟩) ⟨0, by norm_num⟩
  simp [updRow, Fin.ext_iff] at h0

/-- C1 (amended): for every state whose position vector is one-hot (at slot
k mod n) and every element e, pop(push(state, e)) returns the pushed
element e and a state whose position vector equals the pre-push position
and whose buffer equals the pre-push buffer with the slot at the one-hot
position overwritten by e; and pushing any n <= bandwidth elements onto a
fresh stack then popping n times yields them in reverse insertion order. -/
theorem claim1_pop_push (n m : ℕ) (arr : Fin n → Fin m → ℚ) (k : ℕ)
    (e : Fin m → ℚ) (hn : 0 < n) :
    stack_pop (stack_push (arr, onehotN n k) e)
      = ((updRow arr ⟨k % n, Nat.mod_lt _ hn⟩ e, onehotN n k), e)
    ∧ ∀ L : List (Fin m → ℚ), L.length ≤ n →
        (popN L.length (pushAll (new_stack n m) L)).2 = L.reverse := by
  constructor
  · rw [stack_push_onehotN arr k e hn,
      stack_pop_onehotN (updRow arr ⟨k % n, Nat.mod_lt _ hn⟩ e) k hn]
    refine Prod.ext rfl ?_
    show updRow arr ⟨k % n, _⟩ e ⟨k % n, _⟩ = e
    simp [updRow]
  · intro L hL
    exact popN_pushAll_reverse L hL

/-- C1 witness: pushing the two elements 3, 4 on a fresh bandwidth-2 stack
and popping twice yields them in reverse order. -/
theorem claim1_witness :
    (popN 2 (pushAll (new_stack 2 1) [(fun _ => (3 : ℚ)), (fun _ => 4)])).2
      = [(fun _ => (4 : ℚ)), (fun _ => 3)] := by
  have h := (claim1_pop_push 2 1 (fun _ _ => 0) 0 (fun _ => 0) (by decide)).2
    [(fun _ => (3 : ℚ)), (fun _ => 4)] (by decide)
  simpa using h

/-- C2: reverse_list maps row i of its input to row n - 1 - i of the
output (rows in reverse order), and applying reverse_list twice returns
the original array. -/
theorem claim2_reverse_list (n m : ℕ) (arr : Fin n → Fin m → ℚ) :
    reverse_list arr = (fun i => arr (revFin i))
    ∧ reverse_list (reverse_list arr) = arr := by
  refine ⟨reverse_list_eq arr, ?_⟩
  rw [reverse_list_eq arr, reverse_list_eq]
  funext i
  show arr (revFin (revFin i)) = arr i
  rw [revFin_revFin]

/-- C3: the superposition (weighted-sum) lookup with the exact one-hot
weight vector at i returns exactly row i of the array. -/
theorem claim3_superposition_onehot (n m : ℕ) (arr : Fin n → Fin m → ℚ)
    (i : Fin n) :
    superposition_lookup_vectored arr (onehot i) = arr i :=
  superpos_onehot arr i

/-- C8: push rotates a one-hot position cyclically by +1 (so it stays
one-hot), pop rotates it by -1, pushing at the last slot wraps the
position to slot 0 without failing, and after exactly bandwidth pushes the
position vector returns to its initial value. -/
theorem claim8_cyclic (n m : ℕ) (arr : Fin n → Fin m → ℚ) (k : ℕ)
    (e : Fin m → ℚ) :
    (stack_push (arr, onehotN n k) e).2 = onehotN n (k + 1)
    ∧ (stack_pop (arr, onehotN n (k + 1))).1.2 = onehotN n k
    ∧ (0 < n → (stack_push (arr, onehotN n (n - 1)) e).2 = onehotN n 0)
    ∧ ∀ (s : StackState n m) (L : List (Fin m → ℚ)),
        s.2 = onehotN n k → L.length = n → (pushAll s L).2 = onehotN n k := by
  refine ⟨?_, ?_, ?_, ?_⟩
  · show roll1 (onehotN n k) = onehotN n (k + 1)
    exact roll1_onehotN k
  · show rollm1 (onehotN n (k + 1)) = onehotN n k
    rcases Nat.eq_zero_or_pos n with h0 | hn
    · subst h0
      funext j
      exact j.elim0
    · rw [rollm1_onehotN, show k + 1 + (n - 1) = k + n by omega, onehotN_add_n]
  · intro hn
    show roll1 (onehotN n (n - 1)) = onehotN n 0
    rw [roll1_onehotN, show n - 1 + 1 = n by omega]
    funext j
    simp [onehotN, Nat.mod_self, Nat.zero_mod]
  · intro s L hs hL
    rw [pushAll_idx L s k hs, hL, onehotN_add_n]

/-- C8 witness: with bandwidth 2, pushing at the one-hot position of the
last slot wraps the position to slot 0, and two pushes return the position
of a fresh stack to its initial value. -/
theorem claim8_witness :
    (stack_push (((fun _ _ => (0 : ℚ)) : Fin 2 → Fin 1 → ℚ),
        onehotN 2 1) (fun _ => 5)).2 = onehotN 2 0
    ∧ (pushAll (((fun _ _ => (0 : ℚ)) : Fin 2 → Fin 1 → ℚ), onehotN 2 0)
        [(fun _ => (1 : ℚ)), (fun _ => 2)]).2 = onehotN 2 0 := by
  constructor
  · exact (claim8_cyclic 2 1 (fun _ _ => 0) 0 (fun _ => 5)).2.2.1 (by decide)
  · exact (claim8_cyclic 2 1 (fun _ _ => 0) 0 (fun _ => 5)).2.2.2
      ((fun _ _ => 0), onehotN 2 0) [(fun _ => 1), (fun _ => 2)] rfl (by decide)

/-- C9: pop returns a state whose buffer is identical to the input buffer
(the popped slot is not cleared), and peek returns exactly the element pop
would return while producing no new state. -/
theorem claim9_frame (n m : ℕ) (s : StackState n m) :
    (stack_pop s).1.1 = s.1 ∧ stack_peek s = (stack_pop s).2 :=
  ⟨rfl, rfl⟩

end StackClaims

/-- Source `tf.math.divide_no_nan`: zero when the denominator is zero. -/
def divide_no_nan (a b : ℚ) : ℚ := if b = 0 then 0 else a / b

/-- Source `interp_factor(index)`: the interpolation factor together with
the floor and ceil integer indices. -/
def interp_factor (index : ℚ) : ℚ × ℤ × ℤ :=
  (divide_no_nan (index - (⌊index⌋ : ℚ)) ((⌈index⌉ : ℚ) - (⌊index⌋ : ℚ)),
   ⌊index⌋, ⌈index⌉)

/-- Source `tf.clip_by_value` on integers. -/
def clipZ (x lo hi : ℤ) : ℤ := min (max x lo) hi

/-- Source `tf.clip_by_value` on rationals. -/
def clipQ (x lo hi : ℚ) : ℚ := min (max x lo) hi

/-- Integer-address row read `arr[i]`; out-of-range reads, which would
raise in the source, are modelled as the zero row (theorems that use this
stay in range). -/
def zgetV {n m : ℕ} (arr : Fin n → Fin m → ℚ) (i : ℤ) : Fin m → ℚ :=
  if h : 0 ≤ i ∧ i < (n : ℤ) then arr ⟨i.toNat, by omega⟩ else fun _ => 0

/-- Source `linear_lookup(arr, index)`:
`t * arr[i1] + (1 - t) * arr[i2]` with `(t, i1, i2) = interp_factor(index)`. -/
def linear_lookup {n m : ℕ} (arr : Fin n → Fin m → ℚ) (index : ℚ) :
    Fin m → ℚ :=
  fun j => (interp_factor index).1 * zgetV arr (interp_factor index).2.1 j
    + (1 - (interp_factor index).1) * zgetV arr (interp_factor index).2.2 j

/-- Source `bandwidthify(index, bandwidth)`: clip the two indices into
`[0, bandwidth-1]` and the factor into `[0, 1]`, then interpolate between
the two rows of the identity: `t * eye[i1] + (1 - t) * eye[i2]`. -/
def bandwidthify (index : ℚ) (bandwidth : ℕ) : Fin bandwidth → ℚ :=
  fun j =>
    clipQ (interp_factor index).1 0 1
        * (if (j.val : ℤ)
            = clipZ (interp_factor index).2.1 0 ((bandwidth : ℤ) - 1)
          then 1 else 0)
      + (1 - clipQ (interp_factor index).1 0 1)
        * (if (j.val : ℤ)
            = clipZ (interp_factor index).2.2 0 ((bandwidth : ℤ) - 1)
          then 1 else 0)

/-- Source `superposition_lookup(arr, index)`: encode the scalar index
with `bandwidthify` and read with the vectored superposition lookup. -/
def superposition_lookup {n m : ℕ} (arr : Fin n → Fin m → ℚ) (index : ℚ) :
    Fin m → ℚ :=
  superposition_lookup_vectored arr (bandwidthify index n)

section InterpLemmas

lemma interp_t_cases (p : ℚ) :
    (interp_factor p).1 = 0 ∨ (interp_factor p).1 = p - (⌊p⌋ : ℚ) := by
  rw [show (interp_factor p).1
      = divide_no_nan (p - (⌊p⌋ : ℚ)) ((⌈p⌉ : ℚ) - (⌊p⌋ : ℚ)) from rfl]
  unfold divide_no_nan
  by_cases h : ((⌈p⌉ : ℚ) - (⌊p⌋ : ℚ)) = 0
  · left
    rw [if_pos h]
  · right
    rw [if_neg h]
    have hceil : ⌈p⌉ = ⌊p⌋ + 1 := by
      refine le_antisymm (Int.ceil_le_floor_add_one p) ?_
      have h1 := Int.floor_le_ceil p
      have h2 : ⌈p⌉ ≠ ⌊p⌋ := by
        intro hc
        exact h (by rw [hc, sub_self])
      omega
    rw [hceil]
    have hone : (((⌊p⌋ + 1 : ℤ) : ℚ)) - (⌊p⌋ : ℚ) = 1 := by
      push_cast
      ring
    rw [hone, div_one]

lemma interp_t_bounds (p : ℚ) :
    0 ≤ (interp_factor p).1 ∧ (interp_factor p).1 ≤ 1 := by
  rcases interp_t_cases p with h | h
  · rw [h]
    exact ⟨le_refl 0, zero_le_one⟩
  · rw [h]
    constructor
    · linarith [Int.floor_le p]
    · linarith [Int.lt_floor_add_one p]

lemma sum_onehot_int {n : ℕ} (c : ℤ) (h0 : 0 ≤ c) (h1 : c < (n : ℤ)) :
    (∑ j : Fin n, (if (j.val : ℤ) = c then (1 : ℚ) else 0)) = 1 := by
  have key : ∀ j : Fin n, ((j.val : ℤ) = c) = (j = (⟨c.toNat, by omega⟩ : Fin n)) := by
    intro j
    apply propext
    rw [Fin.ext_iff]
    show ((j.val : ℤ) = c) ↔ (j.val = c.toNat)
    constructor <;> (intro h; omega)
  simp only [key]
  rw [Finset.sum_ite_eq']
  simp

lemma sum_pick_int {n m : ℕ} (arr : Fin n → Fin m → ℚ) (c : ℤ)
    (h0 : 0 ≤ c) (h1 : c < (n : ℤ)) (j : Fin m) :
    (∑ i : Fin n, arr i j * (if (i.val : ℤ) = c then (1 : ℚ) else 0))
      = zgetV arr c j := by
  have key : ∀ i : Fin n, ((i.val : ℤ) = c) = (i = (⟨c.toNat, by omega⟩ : Fin n)) := by
    intro i
    apply propext
    rw [Fin.ext_iff]
    show ((i.val : ℤ) = c) ↔ (i.val = c.toNat)
    constructor <;> (intro h; omega)
  simp only [key, mul_ite, mul_one, mul_zero]
  rw [Finset.sum_ite_eq']
  unfold zgetV
  rw [dif_pos ⟨h0, h1⟩]
  simp

lemma clipZ_mem (x : ℤ) (n : ℕ) (hn : 0 < n) :
    0 ≤ clipZ x 0 ((n : ℤ) - 1) ∧ clipZ x 0 ((n : ℤ) - 1) < (n : ℤ) := by
  unfold clipZ
  constructor
  · exact le_min (le_max_right x 0) (by omega)
  · exact lt_of_le_of_lt (min_le_right _ _) (by omega)

end InterpLemmas

/-- C4: bandwidthify always produces a weight vector of length n whose
entries sum to exactly 1, for every rational position p and positive
bandwidth n; when p lies below 0 the encoding saturates to the one-hot at
slot 0, and when p lies above n - 1 it saturates to the one-hot at slot
n - 1, instead of failing. -/
theorem claim4_bandwidthify (p : ℚ) (n : ℕ) (hn : 0 < n) :
    (∑ j, bandwidthify p n j) = 1
    ∧ (p < 0 → bandwidthify p n = onehot (⟨0, hn⟩ : Fin n))
    ∧ ((n : ℚ) - 1 < p → bandwidthify p n = onehot (⟨n - 1, by omega⟩ : Fin n)) := by
  refine ⟨?_, ?_, ?_⟩
  · have hb1 := clipZ_mem (interp_factor p).2.1 n hn
    have hb2 := clipZ_mem (interp_factor p).2.2 n hn
    unfold bandwidthify
    rw [Finset.sum_add_distrib, ← Finset.mul_sum, ← Finset.mul_sum,
      sum_onehot_int _ hb1.1 hb1.2, sum_onehot_int _ hb2.1 hb2.2]
    ring
  · intro hp
    have hfl : (interp_factor p).2.1 ≤ 0 := by
      show ⌊p⌋ ≤ 0
      have := Int.floor_le_floor (le_of_lt hp)
      rwa [Int.floor_zero] at this
    have hcl : (interp_factor p).2.2 ≤ 0 := by
      show ⌈p⌉ ≤ 0
      refine Int.ceil_le.mpr ?_
      push_cast
      linarith
    have h1 : clipZ (interp_factor p).2.1 0 ((n : ℤ) - 1) = 0 := by
      unfold clipZ
      rw [max_eq_right hfl, min_eq_left (by omega)]
    have h2 : clipZ (interp_factor p).2.2 0 ((n : ℤ) - 1) = 0 := by
      unfold clipZ
      rw [max_eq_right hcl, min_eq_left (by omega)]
    funext j
    unfold bandwidthify onehot
    rw [h1, h2]
    by_cases hj : (j.val : ℤ) = 0
    · have hj2 : j = ⟨0, hn⟩ := Fin.ext (show j.val = 0 by omega)
      rw [if_pos hj, if_pos hj2]
      ring
    · have hj2 : j ≠ ⟨0, hn⟩ := by
        intro hc
        refine hj ?_
        rw [hc]
        rfl
      rw [if_neg hj, if_neg hj2]
      ring
  · intro hp
    have hfl : ((n : ℤ) - 1) ≤ (interp_factor p).2.1 := by
      show ((n : ℤ) - 1) ≤ ⌊p⌋
      refine Int.le_floor.mpr ?_
      push_cast
      linarith
    have hcl : ((n : ℤ) - 1) ≤ (interp_factor p).2.2 :=
      le_trans hfl (Int.floor_le_ceil p)
    have h1 : clipZ (interp_factor p).2.1 0 ((n : ℤ) - 1) = (n : ℤ) - 1 := by
      unfold clipZ
      rw [max_eq_left (by omega), min_eq_right (by omega)]
    have h2 : clipZ (interp_factor p).2.2 0 ((n : ℤ) - 1) = (n : ℤ) - 1 := by
      unfold clipZ
      rw [max_eq_left (by omega), min_eq_right (by omega)]
    funext j
    unfold bandwidthify onehot
    rw [h1, h2]
    by_cases hj : (j.val : ℤ) = (n : ℤ) - 1
    · have hj2 : j = (⟨n - 1, by omega⟩ : Fin n) :=
        Fin.ext (show j.val = n - 1 by omega)
      rw [if_pos hj, if_pos hj2]
      ring
    · have hj2 : j ≠ (⟨n - 1, by omega⟩ : Fin n) := by
        intro hc
        apply hj
        rw [hc]
        show (((n - 1 : ℕ) : ℤ)) = (n : ℤ) - 1
        omega
      rw [if_neg hj, if_neg hj2]
      ring

/-- C4 witness: at position 7/2 with bandwidth 3 the weights sum to 1 and
the encoding saturates to the one-hot at the last slot. -/
theorem claim4_witness :
    (∑ j, bandwidthify (7 / 2 : ℚ) 3 j) = 1
    ∧ bandwidthify (7 / 2 : ℚ) 3 = onehot (⟨2, by omega⟩ : Fin 3) := by
  have h := claim4_bandwidthify (7 / 2) 3 (by norm_num)
  exact ⟨h.1, h.2.2 (by norm_num)⟩

/-- Sample 3-row array used by concrete witnesses. -/
def sampleArr3 : Fin 3 → Fin 1 → ℚ := fun i _ => (i.val : ℚ)

/-- C5: for a position p in [0, len-1], linear_lookup lies componentwise
between the rows at floor(p) and ceil(p); and at an integral position the
interpolation factor equals 0 via the guarded division (no NaN or Inf is
possible over ℚ), so that linear_lookup returns exactly the row at p. -/
theorem claim5_linear_lookup {n m : ℕ} (arr : Fin n → Fin m → ℚ) (p : ℚ)
    (_h0 : 0 ≤ p) (_h1 : p ≤ (n : ℚ) - 1) :
    (∀ j, min (zgetV arr ⌊p⌋ j) (zgetV arr ⌈p⌉ j) ≤ linear_lookup arr p j
        ∧ linear_lookup arr p j ≤ max (zgetV arr ⌊p⌋ j) (zgetV arr ⌈p⌉ j))
    ∧ (∀ k : ℤ, p = (k : ℚ) →
        (interp_factor p).1 = 0 ∧ linear_lookup arr p = zgetV arr k) := by
  obtain ⟨ht0, ht1⟩ := interp_t_bounds p
  constructor
  · intro j
    have ht1' : 0 ≤ 1 - (interp_factor p).1 := by linarith
    constructor
    · show _ ≤ (interp_factor p).1 * zgetV arr (interp_factor p).2.1 j
        + (1 - (interp_factor p).1) * zgetV arr (interp_factor p).2.2 j
      calc min (zgetV arr ⌊p⌋ j) (zgetV arr ⌈p⌉ j)
          = (interp_factor p).1 * min (zgetV arr ⌊p⌋ j) (zgetV arr ⌈p⌉ j)
            + (1 - (interp_factor p).1)
              * min (zgetV arr ⌊p⌋ j) (zgetV arr ⌈p⌉ j) := by ring
        _ ≤ _ :=
          add_le_add
            (mul_le_mul_of_nonneg_left (min_le_left _ _) ht0)
            (mul_le_mul_of_nonneg_left (min_le_right _ _) ht1')
    · show (interp_factor p).1 * zgetV arr (interp_factor p).2.1 j
        + (1 - (interp_factor p).1) * zgetV arr (interp_factor p).2.2 j ≤ _
      calc (interp_factor p).1 * zgetV arr (interp_factor p).2.1 j
          + (1 - (interp_factor p).1) * zgetV arr (interp_factor p).2.2 j
          ≤ (interp_factor p).1 * max (zgetV arr ⌊p⌋ j) (zgetV arr ⌈p⌉ j)
            + (1 - (interp_factor p).1)
              * max (zgetV arr ⌊p⌋ j) (zgetV arr ⌈p⌉ j) :=
          add_le_add
            (mul_le_mul_of_nonneg_left (le_max_left _ _) ht0)
            (mul_le_mul_of_nonneg_left (le_max_right _ _) ht1')
        _ = max (zgetV arr ⌊p⌋ j) (zgetV arr ⌈p⌉ j) := by ring
  · intro k hk
    have hzero : (interp_factor p).1 = 0 := by
      show divide_no_nan (p - (⌊p⌋ : ℚ)) ((⌈p⌉ : ℚ) - (⌊p⌋ : ℚ)) = 0
      rw [hk, Int.floor_intCast, Int.ceil_intCast]
      unfold divide_no_nan
      rw [if_pos (sub_self _)]
    refine ⟨hzero, ?_⟩
    funext j
    show (interp_factor p).1 * zgetV arr (interp_factor p).2.1 j
      + (1 - (interp_factor p).1) * zgetV arr (interp_factor p).2.2 j
      = zgetV arr k j
    rw [hzero, show (interp_factor p).2.2 = ⌈p⌉ from rfl, hk, Int.ceil_intCast]
    ring

/-- C5 witness: with the concrete 3-row array and the integral position 2,
the interpolation factor is 0, linear_lookup returns exactly row 2, and
the betweenness bound holds at column 0. -/
theorem claim5_witness :
    linear_lookup sampleArr3 (2 : ℚ) = zgetV sampleArr3 2
    ∧ min (zgetV sampleArr3 ⌊(2 : ℚ)⌋ 0) (zgetV sampleArr3 ⌈(2 : ℚ)⌉ 0)
      ≤ linear_lookup sampleArr3 2 0 := by
  have h := claim5_linear_lookup sampleArr3 2 (by norm_num) (by norm_num)
  exact ⟨(h.2 2 (by norm_num)).2, (h.1 0).1⟩

/-- C10: for a position p in [0, n-1], the scalar-index superposition
lookup (bandwidthify followed by the weighted-sum read) returns exactly
the same value as linear_lookup: the full length-n weight vector only
ever blends the rows at floor(p) and ceil(p). -/
theorem claim10_superposition_is_linear {n m : ℕ} (arr : Fin n → Fin m → ℚ)
    (p : ℚ) (h0 : 0 ≤ p) (h1 : p ≤ (n : ℚ) - 1) :
    superposition_lookup arr p = linear_lookup arr p := by
  have hfl0 : 0 ≤ ⌊p⌋ := Int.floor_nonneg.mpr h0
  have hcl : ⌈p⌉ ≤ (n : ℤ) - 1 := by
    refine Int.ceil_le.mpr ?_
    push_cast
    linarith
  have hfl : ⌊p⌋ ≤ (n : ℤ) - 1 := le_trans (Int.floor_le_ceil p) hcl
  have hcl0 : 0 ≤ ⌈p⌉ := le_trans hfl0 (Int.floor_le_ceil p)
  have hc1 : clipZ (interp_factor p).2.1 0 ((n : ℤ) - 1) = ⌊p⌋ := by
    show clipZ ⌊p⌋ 0 ((n : ℤ) - 1) = ⌊p⌋
    unfold clipZ
    rw [max_eq_left hfl0, min_eq_left hfl]
  have hc2 : clipZ (interp_factor p).2.2 0 ((n : ℤ) - 1) = ⌈p⌉ := by
    show clipZ ⌈p⌉ 0 ((n : ℤ) - 1) = ⌈p⌉
    unfold clipZ
    rw [max_eq_left hcl0, min_eq_left hcl]
  have hq : clipQ (interp_factor p).1 0 1 = (interp_factor p).1 := by
    obtain ⟨a, b⟩ := interp_t_bounds p
    unfold clipQ
    rw [max_eq_left a, min_eq_left b]
  funext j
  show (∑ i, arr i j * bandwidthify p n i) = linear_lookup arr p j
  unfold bandwidthify
  rw [show (∑ i, arr i j *
        (clipQ (interp_factor p).1 0 1
            * (if (i.val : ℤ) = clipZ (interp_factor p).2.1 0 ((n : ℤ) - 1) then 1 else 0)
          + (1 - clipQ (interp_factor p).1 0 1)
            * (if (i.val : ℤ) = clipZ (interp_factor p).2.2 0 ((n : ℤ) - 1) then 1 else 0)))
      = (interp_factor p).1
          * (∑ i, arr i j * (if (i.val : ℤ) = ⌊p⌋ then 1 else 0))
        + (1 - (interp_factor p).1)
          * (∑ i, arr i j * (if (i.val : ℤ) = ⌈p⌉ then 1 else 0)) by
    rw [Finset.mul_sum, Finset.mul_sum, ← Finset.sum_add_distrib]
    refine Finset.sum_congr rfl ?_
    intro i _
    rw [hc1, hc2, hq]
    ring]
  rw [sum_pick_int arr ⌊p⌋ hfl0 (by omega) j,
    sum_pick_int arr ⌈p⌉ hcl0 (by omega) j]
  rfl

/-- C10 witness: at the fractional position 3/2 on the concrete 3-row
array, the superposition lookup and linear_lookup agree. -/
theorem claim10_witness :
    superposition_lookup sampleArr3 (3 / 2 : ℚ) = linear_lookup sampleArr3 (3 / 2) :=
  claim10_superposition_is_linear sampleArr3 (3 / 2) (by norm_num) (by norm_num)

/-- Embedding of `tf.argmax(_, axis=-1)` on one row: fold over the indices
in order, replacing the best index only on a strictly larger value, so
ties keep the first (smallest) index, as in the source. -/
def amax {c : ℕ} (f : Fin (c + 1) → ℚ) : Fin (c + 1) :=
  (List.finRange (c + 1)).foldl (fun best j => if f best < f j then j else best) 0

/-- Embedding of `tf.argmin(_, axis=-1)` on one row: ties keep the first
(smallest) index, as in the source. -/
def amin {c : ℕ} (f : Fin (c + 1) → ℚ) : Fin (c + 1) :=
  (List.finRange (c + 1)).foldl (fun best j => if f j < f best then j else best) 0

/-- Source `asymmetrical_vectored_lookup(v, k)`: the forward result gathers
`v` at the per-row argmax of `k`; the custom gradient receives the
upstream gradients and returns the pair (gradient for v, gradient for k),
with the k-gradient `-(2 * one_hot(argmin (v - target)^2) - ones)` scaled
by the absolute upstream gradient, where `target = forward - upstream`. -/
def asymmetrical_vectored_lookup {r c : ℕ} (v k : Fin r → Fin (c + 1) → ℚ) :
    (Fin r → ℚ)
    × ((Fin r → ℚ) → (Fin r → Fin (c + 1) → ℚ) × (Fin r → Fin (c + 1) → ℚ)) :=
  (fun i => v i (amax (k i)),
   fun upstream_grads =>
     (fun i j => upstream_grads i * k i j,
      fun i j => |upstream_grads i|
        * (-(2 * (if j = amin (fun j2 =>
              (v i j2 - (v i (amax (k i)) - upstream_grads i)) ^ 2)
            then (1 : ℚ) else 0) - 1))))

/-- The column whose value is nearest (least squared difference) to the
backward-pass target `forward_result - upstream_gradient` of a row. -/
def asym_target_col {r c : ℕ} (v k : Fin r → Fin (c + 1) → ℚ)
    (g : Fin r → ℚ) (i : Fin r) : Fin (c + 1) :=
  amin (fun j2 => (v i j2 - (v i (amax (k i)) - g i)) ^ 2)

section ArgLemmas

variable {c : ℕ}

lemma foldl_argmax_prop (f : Fin (c + 1) → ℚ) (l : List (Fin (c + 1))) :
    ∀ b : Fin (c + 1),
      f b ≤ f (l.foldl (fun best j => if f best < f j then j else best) b)
      ∧ ∀ j ∈ l, f j ≤ f (l.foldl (fun best j => if f best < f j then j else best) b) := by
  induction l with
  | nil =>
    intro b
    exact ⟨le_refl _, by simp⟩
  | cons a l ih =>
    intro b
    simp only [List.foldl_cons]
    have hstep : f b ≤ f (if f b < f a then a else b)
        ∧ f a ≤ f (if f b < f a then a else b) := by
      by_cases h : f b < f a
      · rw [if_pos h]
        exact ⟨le_of_lt h, le_refl _⟩
      · rw [if_neg h]
        exact ⟨le_refl _, le_of_not_lt h⟩
    obtain ⟨ih1, ih2⟩ := ih (if f b < f a then a else b)
    refine ⟨le_trans hstep.1 ih1, ?_⟩
    intro j hj
    rcases List.mem_cons.mp hj with h | h
    · subst h
      exact le_trans hstep.2 ih1
    · exact ih2 j h

lemma foldl_argmin_prop (f : Fin (c + 1) → ℚ) (l : List (Fin (c + 1))) :
    ∀ b : Fin (c + 1),
      f (l.foldl (fun best j => if f j < f best then j else best) b) ≤ f b
      ∧ ∀ j ∈ l, f (l.foldl (fun best j => if f j < f best then j else best) b) ≤ f j := by
  induction l with
  | nil =>
    intro b
    exact ⟨le_refl _, by simp⟩
  | cons a l ih =>
    intro b
    simp only [List.foldl_cons]
    have hstep : f (if f a < f b then a else b) ≤ f b
        ∧ f (if f a < f b then a else b) ≤ f a := by
      by_cases h : f a < f b
      · rw [if_pos h]
        exact ⟨le_of_lt h, le_refl _⟩
      · rw [if_neg h]
        exact ⟨le_refl _, le_of_not_lt h⟩
    obtain ⟨ih1, ih2⟩ := ih (if f a < f b then a else b)
    refine ⟨le_trans ih1 hstep.1, ?_⟩
    intro j hj
    rcases List.mem_cons.mp hj with h | h
    · subst h
      exact le_trans ih1 hstep.2
    · exact ih2 j h

lemma le_amax (f : Fin (c + 1) → ℚ) (j : Fin (c + 1)) : f j ≤ f (amax f) :=
  (foldl_argmax_prop f (List.finRange (c + 1)) 0).2 j (List.mem_finRange j)

lemma amin_le (f : Fin (c + 1) → ℚ) (j : Fin (c + 1)) : f (amin f) ≤ f j :=
  (foldl_argmin_prop f (List.finRange (c + 1)) 0).2 j (List.mem_finRange j)

end ArgLemmas

/-- C6: the forward result of asymmetrical_vectored_lookup is, row by row,
the entry of v at the argmax column of k (a column of maximal weight); the
backward rule returns gradient g * k for v, and for k a vector that is
+|g| at every column except -|g| at the column of v whose value minimizes
the squared difference to forward_result - g. -/
theorem claim6_asymmetric (r c : ℕ) (v k : Fin r → Fin (c + 1) → ℚ)
    (g : Fin r → ℚ) (i : Fin r) (j : Fin (c + 1)) :
    ((asymmetrical_vectored_lookup v k).1 i = v i (amax (k i))
      ∧ k i j ≤ k i (amax (k i)))
    ∧ ((asymmetrical_vectored_lookup v k).2 g).1 i j = g i * k i j
    ∧ ((asymmetrical_vectored_lookup v k).2 g).2 i j
        = (if j = asym_target_col v k g i then -|g i| else |g i|)
    ∧ (v i (asym_target_col v k g i)
          - ((asymmetrical_vectored_lookup v k).1 i - g i)) ^ 2
        ≤ (v i j - ((asymmetrical_vectored_lookup v k).1 i - g i)) ^ 2 := by
  refine ⟨⟨rfl, le_amax (k i) j⟩, rfl, ?_, ?_⟩
  · show |g i| * (-(2 * (if j = asym_target_col v k g i then (1 : ℚ) else 0) - 1))
      = (if j = asym_target_col v k g i then -|g i| else |g i|)
    by_cases h : j = asym_target_col v k g i
    · rw [if_pos h, if_pos h]
      ring
    · rw [if_neg h, if_neg h]
      ring
  · exact amin_le (fun j2 => (v i j2 - (v i (amax (k i)) - g i)) ^ 2) j

/-- Source `broadcast_multiply(x, y)`: `match_shapes` aligns the lower-rank
mask with the higher-rank array (here the mask gains a trailing singleton
axis, checked statically by the types) and multiplies elementwise. -/
def broadcast_multiply {a b mm : ℕ} (mask : Fin a → Fin b → ℚ)
    (arr : Fin a → Fin b → Fin mm → ℚ) : Fin a → Fin b → Fin mm → ℚ :=
  fun i j l => mask i j * arr i j l

/-- Source `tf.tensordot(x_index, y_index, axes=0)`: the outer product. -/
def outer_product {a b : ℕ} (x : Fin a → ℚ) (y : Fin b → ℚ) :
    Fin a → Fin b → ℚ :=
  fun i j => x i * y j

/-- Source `tf.math.reduce_max(_, axis=[0,1])`: the maximum of all entries
over the first two axes, computed by folding max over every cell. -/
def reduce_max_01 {a b mm : ℕ} (g : Fin (a + 1) → Fin (b + 1) → Fin mm → ℚ) :
    Fin mm → ℚ :=
  fun l => ((List.finRange (a + 1)).flatMap
      (fun i => (List.finRange (b + 1)).map (fun j => g i j l))).foldl
    max (g 0 0 l)

/-- Source `tensor_lookup_2d(arr, x_index, y_index)`: outer-product mask,
broadcast multiply, then max-reduction over the two indexed axes. -/
def tensor_lookup_2d {a b mm : ℕ}
    (arr : Fin (a + 1) → Fin (b + 1) → Fin mm → ℚ)
    (x_index : Fin (a + 1) → ℚ) (y_index : Fin (b + 1) → ℚ) : Fin mm → ℚ :=
  reduce_max_01 (broadcast_multiply (outer_product x_index y_index) arr)

section MaxLemmas

lemma foldl_max_eq (l : List ℚ) :
    ∀ b M : ℚ, b ≤ M → (∀ v ∈ l, v ≤ M) → (M ∈ l ∨ M = b) →
      l.foldl max b = M := by
  induction l with
  | nil =>
    intro b M _ _ hmem
    rcases hmem with h | h
    · exact absurd h (List.not_mem_nil M)
    · simp [h]
  | cons a l ih =>
    intro b M hb hall hmem
    simp only [List.foldl_cons]
    have ha : a ≤ M := hall a (List.mem_cons_self a l)
    rcases hmem with h | h
    · rcases List.mem_cons.mp h with h1 | h1
      · subst h1
        exact ih (max b M) M (max_le hb le_rfl)
          (fun v hv => hall v (List.mem_cons_of_mem _ hv))
          (Or.inr (max_eq_right hb).symm)
      · exact ih (max b a) M (max_le hb ha)
          (fun v hv => hall v (List.mem_cons_of_mem _ hv)) (Or.inl h1)
    · subst h
      exact ih (max M a) M (max_le le_rfl ha)
        (fun v hv => hall v (List.mem_cons_of_mem _ hv))
        (Or.inr (max_eq_left ha).symm)

lemma cell_mem {a b mm : ℕ} (g : Fin (a + 1) → Fin (b + 1) → Fin mm → ℚ)
    (x : Fin (a + 1)) (y : Fin (b + 1)) (l : Fin mm) :
    g x y l ∈ (List.finRange (a + 1)).flatMap
      (fun i => (List.finRange (b + 1)).map (fun j => g i j l)) := by
  refine List.mem_flatMap.mpr ⟨x, List.mem_finRange x, ?_⟩
  exact List.mem_map.mpr ⟨y, List.mem_finRange y, rfl⟩

end MaxLemmas

/-- C7 counterexample array: the stored slice at (0, 0) is negative. -/
def negArr : Fin 2 → Fin 1 → Fin 1 → ℚ := fun i _ _ => if i = 0 then -1 else 5

/-- C7 counterexample: with exact one-hot indices at (0, 0), the max
reduction compares the stored value -1 against the zeroed-out other cells
and returns 0, not the stored slice. -/
theorem claim7_counterexample :
    tensor_lookup_2d negArr (onehot 0) (onehot 0) ≠ negArr 0 0 := by
  have hlookup : tensor_lookup_2d negArr (onehot 0) (onehot 0) 0 = 0 := by
    show ((List.finRange 2).flatMap (fun i => (List.finRange 1).map
        (fun j => broadcast_multiply (outer_product (onehot 0) (onehot 0)) negArr i j 0))).foldl
        max (broadcast_multiply (outer_product (onehot 0) (onehot 0)) negArr 0 0 0)
      = 0
    refine foldl_max_eq _ _ 0 ?_ ?_ ?_
    · norm_num [broadcast_multiply, outer_product, onehot, negArr]
    · intro w hw
      obtain ⟨i, _, hw2⟩ := List.mem_flatMap.mp hw
      obtain ⟨j, _, rfl⟩ := List.mem_map.mp hw2
      fin_cases i <;> fin_cases j <;>
        norm_num [broadcast_multiply, outer_product, onehot, negArr, Fin.ext_iff]
    · left
      have he : broadcast_multiply (outer_product (onehot 0) (onehot 0)) negArr 1 0 0 = 0 := by
        norm_num [broadcast_multiply, outer_product, onehot, Fin.ext_iff]
      exact he ▸ cell_mem (broadcast_multiply (outer_product (onehot 0) (onehot 0)) negArr) 1 0 0
  intro hcontra
  have h := congrFun hcontra 0
  rw [hlookup] at h
  norm_num [negArr] at h

/-- C7 (amended): with exact one-hot index vectors at (x, y), the 2-D
tensor lookup recovers exactly the stored slice arr x y whenever every
component of that slice is nonnegative; the max reduction compares the
masked slice against the zeroed-out remaining cells, so a negative stored
component is replaced by 0. -/
theorem claim7_tensor_lookup {a b mm : ℕ}
    (arr : Fin (a + 1) → Fin (b + 1) → Fin mm → ℚ)
    (x : Fin (a + 1)) (y : Fin (b + 1)) (hpos : ∀ l, 0 ≤ arr x y l) :
    tensor_lookup_2d arr (onehot x) (onehot y) = arr x y := by
  funext l
  show ((List.finRange (a + 1)).flatMap (fun i => (List.finRange (b + 1)).map
      (fun j => broadcast_multiply (outer_product (onehot x) (onehot y)) arr i j l))).foldl
      max (broadcast_multiply (outer_product (onehot x) (onehot y)) arr 0 0 l)
    = arr x y l
  have hval : ∀ i j, broadcast_multiply (outer_product (onehot x) (onehot y)) arr i j l
      = if i = x ∧ j = y then arr x y l else 0 := by
    intro i j
    by_cases hi : i = x <;> by_cases hj : j = y <;>
      simp [broadcast_multiply, outer_product, onehot, hi, hj]
  refine foldl_max_eq _ _ (arr x y l) ?_ ?_ ?_
  · rw [hval 0 0]
    by_cases h : (0 : Fin (a + 1)) = x ∧ (0 : Fin (b + 1)) = y
    · rw [if_pos h]
    · rw [if_neg h]
      exact hpos l
  · intro w hw
    obtain ⟨i, _, hw2⟩ := List.mem_flatMap.mp hw
    obtain ⟨j, _, rfl⟩ := List.mem_map.mp hw2
    rw [hval i j]
    by_cases h : i = x ∧ j = y
    · rw [if_pos h]
    · rw [if_neg h]
      exact hpos l
  · left
    have he : broadcast_multiply (outer_product (onehot x) (onehot y)) arr x y l
        = arr x y l := by
      rw [hval x y, if_pos ⟨rfl, rfl⟩]
    exact he ▸ cell_mem (broadcast_multiply (outer_product (onehot x) (onehot y)) arr) x y l

/-- Nonnegative sample array for the C7 witness. -/
def posArr : Fin 2 → Fin 1 → Fin 1 → ℚ := fun i _ _ => (i.val : ℚ) + 1

/-- C7 witness: on a nonnegative stored array the 2-D tensor lookup with
one-hot indices recovers the stored slice. -/
theorem claim7_witness :
    tensor_lookup_2d posArr (onehot 1) (onehot 0) = posArr 1 0 :=
  claim7_tensor_lookup posArr 1 0 (fun l => by norm_num [posArr])
